import Mathlib

/-!
Shallow embedding of the rate-limit directive core
(`src/directive.ts`, `src/types.ts`): quota validation, the LRU cache of
limiter clients, the wrapped-resolver interception pipeline, the error
classifier, and the key-generator strategies.
-/

set_option maxRecDepth 4000

namespace RateLimitDirective

/-- A JavaScript number as far as the directive inspects it: either an
integer value, or some non-integral number (fractional, `NaN`, `±Infinity`)
for which `Number.isInteger` is `false`.  The non-integral case is abstract;
its string rendering is stood in by `"NaN"` (no actual JS rendering of a
non-integral number contains the character `R`, which is all the pipeline
ever asks of a rendering). -/
inductive JsNumber where
  | int (n : Int)
  | nonInt
  deriving DecidableEq, Repr

/-- Decimal digit characters, as produced by JS number-to-string. -/
def digitChar : Nat → Char
  | 0 => '0' | 1 => '1' | 2 => '2' | 3 => '3' | 4 => '4'
  | 5 => '5' | 6 => '6' | 7 => '7' | 8 => '8' | _ => '9'

/-- Big-endian decimal digits of `n`, prepended to `acc`; fuel-recursive so
that it reduces in the kernel.  Any `fuel > n` gives the true digits. -/
def natDigitsCore : Nat → Nat → List Char → List Char
  | 0, _, acc => acc
  | fuel + 1, n, acc =>
    if n < 10 then digitChar n :: acc
    else natDigitsCore fuel (n / 10) (digitChar (n % 10) :: acc)

/-- Decimal rendering of a natural number. -/
def natRepr (n : Nat) : String := ⟨natDigitsCore (n + 1) n []⟩

/-- Numeric value of a digit character (used only in proofs, to invert
`natRepr`). -/
def digitVal (c : Char) : Nat := c.toNat - 48

/-- Value of a big-endian digit string (left fold). -/
def digitsVal (l : List Char) : Nat := l.foldl (fun x c => 10 * x + digitVal c) 0

/-- Decimal rendering of an integer (JS template-literal interpolation). -/
def intRepr : Int → String
  | .ofNat m => natRepr m
  | .negSucc m => "-" ++ natRepr (m + 1)

/-- String interpolation of a `JsNumber` (JS `${x}`). -/
def jsNumRepr : JsNumber → String
  | .int n => intRepr n
  | .nonInt => "NaN"

/-- Arguments of the `@rateLimit` directive (`RateLimitDirectiveArgs`). -/
structure RateLimitDirectiveArgs where
  duration : JsNumber
  limit : JsNumber
  deriving DecidableEq, Repr

/-- `validateDirectiveArgs` (`src/directive.ts:21`): throws (models as
`Except.error` with the thrown message) unless both arguments are positive
integers within the abuse bounds. -/
def validateDirectiveArgs (args : RateLimitDirectiveArgs) : Except String Unit :=
  match args.limit with
  | .nonInt =>
    .error ("Invalid rate limit: " ++ jsNumRepr args.limit ++ ". Must be a positive integer.")
  | .int l =>
    if l ≤ 0 then
      .error ("Invalid rate limit: " ++ jsNumRepr args.limit ++ ". Must be a positive integer.")
    else
      match args.duration with
      | .nonInt =>
        .error ("Invalid duration: " ++ jsNumRepr args.duration ++
          ". Must be a positive integer (seconds).")
      | .int d =>
        if d ≤ 0 then
          .error ("Invalid duration: " ++ jsNumRepr args.duration ++
            ". Must be a positive integer (seconds).")
        else if d > 31536000 then
          .error ("Invalid duration: " ++ jsNumRepr args.duration ++
            ". Maximum allowed is 31536000 seconds (1 year).")
        else if l > 1000000 then
          .error ("Invalid limit: " ++ jsNumRepr args.limit ++ ". Maximum allowed is 1000000.")
        else
          .ok ()

/-- `pat` begins the character list `s`. -/
def beginsWith : List Char → List Char → Bool
  | [], _ => true
  | _ :: _, [] => false
  | p :: ps, c :: cs => p == c && beginsWith ps cs

/-- `pat` occurs as a contiguous sublist of `s`. -/
def hasSublist (pat : List Char) : List Char → Bool
  | [] => beginsWith pat []
  | c :: cs => beginsWith pat (c :: cs) || hasSublist pat cs

/-- JS `s.includes(pat)`. -/
def strIncludes (s pat : String) : Bool := hasSublist pat.data s.data

/-- The `extensions` payload of a `GraphQLError` built by the directive:
`code`, the nested `http.status`, and the optional `retryAfter` hint. -/
structure Extensions where
  code : String
  httpStatus : Nat
  retryAfter : Option Int
  deriving DecidableEq, Repr

/-- A thrown JS value, as far as the wrapper inspects it: its `message`
(`""` standing for a missing/undefined message), its `msBeforeNext` field
when present and numeric, and the directive-shaped `extensions` when the
value is a `GraphQLError` built by this module (`none` otherwise). -/
structure ErrorValue where
  message : String
  msBeforeNext : Option ℚ
  extensions : Option Extensions
  deriving DecidableEq, Repr

/-- The `GraphQLError` thrown on a quota rejection
(`src/directive.ts:143`). -/
def rateLimitedError (ms : ℚ) : ErrorValue :=
  { message := "Rate limit exceeded"
    msBeforeNext := none
    extensions := some { code := "RATE_LIMITED", httpStatus := 429, retryAfter := some ⌈ms / 1000⌉ } }

/-- The `GraphQLError` thrown when an error message mentions Redis
(`src/directive.ts:159`). -/
def serviceUnavailableError : ErrorValue :=
  { message := "Rate limiting service unavailable"
    msBeforeNext := none
    extensions := some { code := "RATE_LIMIT_SERVICE_ERROR", httpStatus := 503, retryAfter := none } }

/-- Outcome of one wrapped-resolver invocation, together with how many
times each collaborator was invoked. -/
structure CallResult (α : Type) where
  result : Except ErrorValue α
  keyGenCalls : Nat
  consumeCalls : Nat
  resolveCalls : Nat
  deriving Repr

/-- The body of the `try` block of the wrapped resolver
(`src/directive.ts:131-155`): call the key generator, then `getLimiter`
(which validates the directive arguments; the limiter itself is abstracted
into the `consume` outcome function), then `consume`, classifying a
rejection that carries a numeric `msBeforeNext`; on success delegate to the
original resolver.  `keyGen` is the outcome of the single key-generator
call, `consume k` the outcome of consuming key `k`, `resolve` the outcome
of the original resolver. -/
def tryBlock (args : RateLimitDirectiveArgs) (keyGen : Except ErrorValue String)
    (consume : String → Except ErrorValue Unit) (resolve : Except ErrorValue α) :
    CallResult α :=
  match keyGen with
  | .error e => ⟨.error e, 1, 0, 0⟩
  | .ok key =>
    match validateDirectiveArgs args with
    | .error m => ⟨.error ⟨m, none, none⟩, 1, 0, 0⟩
    | .ok _ =>
      match consume key with
      | .error e =>
        match e.msBeforeNext with
        | some ms => ⟨.error (rateLimitedError ms), 1, 1, 0⟩
        | none => ⟨.error e, 1, 1, 0⟩
      | .ok _ => ⟨resolve, 1, 1, 1⟩

/-- The whole wrapped resolver (`src/directive.ts:125-169`): the `try`
block under the outer `catch`, which turns any escaping error whose message
contains `"Redis"` into the service-unavailable `GraphQLError` and
re-throws everything else unchanged. -/
def wrappedResolve (args : RateLimitDirectiveArgs) (keyGen : Except ErrorValue String)
    (consume : String → Except ErrorValue Unit) (resolve : Except ErrorValue α) :
    CallResult α :=
  let r := tryBlock args keyGen consume resolve
  match r.result with
  | .ok v => { r with result := .ok v }
  | .error e =>
    if strIncludes e.message "Redis" then { r with result := .error serviceUnavailableError }
    else { r with result := .error e }

/-- The slice of `GraphQLResolveInfo` the key generators read. -/
structure ResolveInfo where
  parentTypeName : String
  fieldName : String
  deriving DecidableEq, Repr

/-- `defaultKeyGenerator` (`src/types.ts`): ignores the directive
arguments, source, resolver arguments and context, and keys on
`` `${info.parentType.name}.${info.fieldName}` `` alone. -/
def defaultKeyGenerator (_directiveArgs : RateLimitDirectiveArgs) (_source : σ)
    (_args : ρ) (_context : γ) (info : ResolveInfo) : String :=
  info.parentTypeName ++ "." ++ info.fieldName

/-- `createCompositeKeyGenerator` (`src/types.ts`): `getIdentifiers`
returns a record, modelled as its `Object.entries` list in insertion
order, values `none` for `null`/`undefined`.  Entries with non-null values
are kept, rendered `` `${key}:${value}` `` and joined with `":"`, then
suffixed with `` `:${info.parentType.name}.${info.fieldName}` ``. -/
def createCompositeKeyGenerator (getIdentifiers : γ → List (String × Option String))
    (_directiveArgs : RateLimitDirectiveArgs) (_source : σ) (_args : ρ) (context : γ)
    (info : ResolveInfo) : String :=
  let identifiers := getIdentifiers context
  let identifierParts :=
    String.intercalate ":"
      ((identifiers.filter (fun p => p.2.isSome)).map (fun p => p.1 ++ ":" ++ p.2.getD ""))
  identifierParts ++ ":" ++ info.parentTypeName ++ "." ++ info.fieldName

/-- The cache key of a limiter configuration
(`` `${args.duration}:${args.limit}` ``, `src/directive.ts:73`). -/
def cacheKey (args : RateLimitDirectiveArgs) : String :=
  jsNumRepr args.duration ++ ":" ++ jsNumRepr args.limit

/-- `MAX_LIMITER_CACHE_SIZE` (`src/directive.ts:16`). -/
def MAX_LIMITER_CACHE_SIZE : Nat := 100

/-- The limiter cache's entry list: a JS `Map` in insertion order, oldest
first, most recently inserted last.  A limiter instance is identified by
the `Nat` id its construction was assigned. -/
abbrev Entries := List (String × Nat)

/-- `Map.prototype.get`/`has` combined: the value at the first entry whose
key is `k`, if any. -/
def lookupEntry (k : String) : Entries → Option Nat
  | [] => none
  | (k', v) :: rest => if k' = k then some v else lookupEntry k rest

/-- `Map.prototype.delete k`: removes the entry with key `k` (a JS `Map`
holds at most one). -/
def eraseEntry (k : String) : Entries → Entries
  | [] => []
  | (k', v) :: rest => if k' = k then rest else (k', v) :: eraseEntry k rest

/-- The mutable state closed over by `getLimiter`: the `limiterCache` map
plus a counter of constructed limiter instances, so that distinct
`new limiterClass(...)` calls yield distinct ids (reference identity). -/
structure LimiterCache where
  entries : Entries
  nextId : Nat
  deriving DecidableEq, Repr

/-- The eviction step of `getLimiter` (`src/directive.ts:85-90`): when the
cache is at capacity, read the first key of the map
(`limiterCache.keys().next().value`) and, if it is truthy (the empty
string is falsy in JS), delete it. -/
def evictIfFull (entries : Entries) : Entries :=
  if MAX_LIMITER_CACHE_SIZE ≤ entries.length then
    match entries.head? with
    | some (oldestKey, _) =>
      if oldestKey = "" then entries else eraseEntry oldestKey entries
    | none => entries
  else entries

/-- `getLimiter` (`src/directive.ts:69-101`): validate, compute the cache
key; on a hit delete and re-append the entry (most-recently-used) and
return it; on a miss, evict the oldest entry when at capacity, construct a
fresh limiter and append it. -/
def getLimiter (args : RateLimitDirectiveArgs) (st : LimiterCache) :
    Except String (Nat × LimiterCache) :=
  match validateDirectiveArgs args with
  | .error m => .error m
  | .ok _ =>
    let key := cacheKey args
    match lookupEntry key st.entries with
    | some v => .ok (v, { st with entries := eraseEntry key st.entries ++ [(key, v)] })
    | none =>
      .ok (st.nextId,
        { entries := evictIfFull st.entries ++ [(key, st.nextId)], nextId := st.nextId + 1 })

/-- The cache as freshly created (`new Map()`, no limiter constructed). -/
def initCache : LimiterCache := ⟨[], 0⟩

/-- Runs a sequence of `getLimiter` calls, threading the cache state; a
call that throws leaves the cache unchanged. -/
def runCalls : List RateLimitDirectiveArgs → LimiterCache → LimiterCache
  | [], st => st
  | a :: rest, st =>
    match getLimiter a st with
    | .error _ => runCalls rest st
    | .ok (_, st') => runCalls rest st'

/-- Well-formedness of a cache state, holding of every state `getLimiter`
can reach from `initCache`: bounded size, no empty-string keys, unique
keys, unique instance ids, all ids below the construction counter. -/
def WFCache (st : LimiterCache) : Prop :=
  st.entries.length ≤ MAX_LIMITER_CACHE_SIZE ∧
  (∀ p ∈ st.entries, p.1 ≠ "") ∧
  (st.entries.map Prod.fst).Nodup ∧
  (st.entries.map Prod.snd).Nodup ∧
  (∀ p ∈ st.entries, p.2 < st.nextId)

/-- The per-call outcomes of a sequence of `getLimiter` calls: for every
call of the sequence that succeeds, the arguments it was given and the
instance id it returned, in order. -/
def runTrace : List RateLimitDirectiveArgs → LimiterCache → List (RateLimitDirectiveArgs × Nat)
  | [], _ => []
  | a :: rest, st =>
    match getLimiter a st with
    | .error _ => runTrace rest st
    | .ok (v, st') => (a, v) :: runTrace rest st'

/-- The cache entry for key `k` survives a sequence of `getLimiter` calls:
after every successful call of the sequence, `k` is still among the cached
keys — that is, the entry is never evicted while the sequence runs. -/
def keyKept (k : String) : List RateLimitDirectiveArgs → LimiterCache → Prop
  | [], _ => True
  | a :: rest, st =>
    match getLimiter a st with
    | .error _ => keyKept k rest st
    | .ok (_, st') => k ∈ st'.entries.map Prod.fst ∧ keyKept k rest st'

/-- Ghost record of which cache key each constructed limiter instance was
created for: every cached entry's id maps to its key, and only ids below
the construction counter are recorded. -/
def Assigns (f : Nat → Option String) (st : LimiterCache) : Prop :=
  (∀ p ∈ st.entries, f p.2 = some p.1) ∧ (∀ n : Nat, f n ≠ none → n < st.nextId)

/-! Concrete inputs used by witnesses and counterexamples. -/

/-- A valid configuration: 5 requests per 60 seconds. -/
def validArgs : RateLimitDirectiveArgs := ⟨.int 60, .int 5⟩

/-- An invalid configuration: limit 0. -/
def invalidArgs : RateLimitDirectiveArgs := ⟨.int 60, .int 0⟩

/-- Configuration used to exhibit LRU eviction: 200 per second. -/
def evictedArgs : RateLimitDirectiveArgs := ⟨.int 1, .int 200⟩

/-- 100 configurations distinct from `evictedArgs` and from each other. -/
def fillerArgs : List RateLimitDirectiveArgs :=
  (List.range 100).map (fun i => ⟨.int 1, .int (i + 1)⟩)

/-- `evictedArgs` first, then enough distinct configurations to evict it. -/
def evictionSeq : List RateLimitDirectiveArgs := evictedArgs :: fillerArgs

/-! ### Characters of decimal renderings -/

theorem digitChar_ne (k : Nat) :
    digitChar k ≠ 'R' ∧ digitChar k ≠ ':' ∧ digitChar k ≠ '.' := by
  unfold digitChar
  split <;> exact ⟨by decide, by decide, by decide⟩

theorem mem_natDigitsCore {fuel n : Nat} {acc : List Char} {c : Char}
    (h : c ∈ natDigitsCore fuel n acc) : (∃ k, c = digitChar k) ∨ c ∈ acc := by
  induction fuel generalizing n acc with
  | zero => exact .inr h
  | succ fuel ih =>
    rw [natDigitsCore] at h
    by_cases hn : n < 10
    · rw [if_pos hn] at h
      rcases List.mem_cons.mp h with h | h
      · exact .inl ⟨n, h⟩
      · exact .inr h
    · rw [if_neg hn] at h
      rcases ih h with h | h
      · exact .inl h
      · rcases List.mem_cons.mp h with h | h
        · exact .inl ⟨n % 10, h⟩
        · exact .inr h

theorem mem_natRepr {n : Nat} {c : Char} (h : c ∈ (natRepr n).data) :
    ∃ k, c = digitChar k := by
  rcases mem_natDigitsCore (h : c ∈ natDigitsCore (n + 1) n []) with h | h
  · exact h
  · exact absurd h (List.not_mem_nil c)

theorem r_not_mem_jsNumRepr (x : JsNumber) : 'R' ∉ (jsNumRepr x).data := by
  intro h
  match x with
  | .nonInt => exact absurd h (by decide)
  | .int (.ofNat m) =>
    obtain ⟨k, hk⟩ := mem_natRepr (h : 'R' ∈ (natRepr m).data)
    exact (digitChar_ne k).1 hk.symm
  | .int (.negSucc m) =>
    rw [show jsNumRepr (.int (.negSucc m)) = "-" ++ natRepr (m + 1) from rfl,
      String.data_append] at h
    rcases List.mem_append.mp h with h | h
    · exact absurd h (by decide)
    · obtain ⟨k, hk⟩ := mem_natRepr h
      exact (digitChar_ne k).1 hk.symm

theorem hasSublist_cons_eq_false {p : Char} {ps : List Char} :
    ∀ {s : List Char}, p ∉ s → hasSublist (p :: ps) s = false
  | [], _ => rfl
  | c :: cs, h => by
    rw [hasSublist]
    have hpc : p ≠ c := fun hh => h (hh ▸ List.mem_cons_self _ _)
    have h1 : beginsWith (p :: ps) (c :: cs) = false := by
      rw [beginsWith]
      simp [hpc]
    rw [h1, Bool.false_or]
    exact hasSublist_cons_eq_false (fun hc => h (List.mem_cons_of_mem _ hc))

theorem strIncludes_redis_eq_false {m : String} (h : 'R' ∉ m.data) :
    strIncludes m "Redis" = false := by
  rw [strIncludes, show ("Redis" : String).data = 'R' :: ['e', 'd', 'i', 's'] from rfl]
  exact hasSublist_cons_eq_false h

theorem r_not_mem_interp (t1 t2 : String) (x : JsNumber)
    (h1 : 'R' ∉ t1.data) (h2 : 'R' ∉ t2.data) :
    'R' ∉ (t1 ++ jsNumRepr x ++ t2).data := by
  intro h
  rw [String.data_append, String.data_append] at h
  rcases List.mem_append.mp h with h | h
  · rcases List.mem_append.mp h with h | h
    · exact h1 h
    · exact r_not_mem_jsNumRepr x h
  · exact h2 h

theorem validate_error_r_not_mem {args : RateLimitDirectiveArgs} {m : String}
    (h : validateDirectiveArgs args = .error m) : 'R' ∉ m.data := by
  unfold validateDirectiveArgs at h
  split at h
  · injection h with h
    subst h
    exact r_not_mem_interp _ _ _ (by decide) (by decide)
  · split at h
    · injection h with h
      subst h
      exact r_not_mem_interp _ _ _ (by decide) (by decide)
    · split at h
      · injection h with h
        subst h
        exact r_not_mem_interp _ _ _ (by decide) (by decide)
      · split at h
        · injection h with h
          subst h
          exact r_not_mem_interp _ _ _ (by decide) (by decide)
        · split at h
          · injection h with h
            subst h
            exact r_not_mem_interp _ _ _ (by decide) (by decide)
          · split at h
            · injection h with h
              subst h
              exact r_not_mem_interp _ _ _ (by decide) (by decide)
            · exact absurd h (by simp)

theorem validate_error_not_redis {args : RateLimitDirectiveArgs} {m : String}
    (h : validateDirectiveArgs args = .error m) : strIncludes m "Redis" = false :=
  strIncludes_redis_eq_false (validate_error_r_not_mem h)

/-! ### Validation -/

theorem validate_ok_iff (args : RateLimitDirectiveArgs) :
    validateDirectiveArgs args = .ok () ↔
      (∃ l : Int, args.limit = .int l ∧ 1 ≤ l ∧ l ≤ 1000000) ∧
      (∃ d : Int, args.duration = .int d ∧ 1 ≤ d ∧ d ≤ 31536000) := by
  obtain ⟨d, l⟩ := args
  unfold validateDirectiveArgs
  cases l <;> cases d <;> simp <;> split_ifs <;> simp <;> omega

/-! ### The interception pipeline -/

theorem wrappedResolve_counts (args : RateLimitDirectiveArgs)
    (keyGen : Except ErrorValue String) (consume : String → Except ErrorValue Unit)
    (resolve : Except ErrorValue α) :
    (wrappedResolve args keyGen consume resolve).keyGenCalls =
        (tryBlock args keyGen consume resolve).keyGenCalls ∧
      (wrappedResolve args keyGen consume resolve).consumeCalls =
        (tryBlock args keyGen consume resolve).consumeCalls ∧
      (wrappedResolve args keyGen consume resolve).resolveCalls =
        (tryBlock args keyGen consume resolve).resolveCalls := by
  simp only [wrappedResolve]
  split
  · exact ⟨rfl, rfl, rfl⟩
  · split <;> exact ⟨rfl, rfl, rfl⟩

theorem tryBlock_validate_error {args : RateLimitDirectiveArgs} {m : String}
    (h : validateDirectiveArgs args = .error m) (k : String)
    (consume : String → Except ErrorValue Unit) (resolve : Except ErrorValue α) :
    tryBlock args (.ok k) consume resolve = ⟨.error ⟨m, none, none⟩, 1, 0, 0⟩ := by
  unfold tryBlock
  rw [h]

theorem wrappedResolve_validate_error {args : RateLimitDirectiveArgs} {m : String}
    (h : validateDirectiveArgs args = .error m) (k : String)
    (consume : String → Except ErrorValue Unit) (resolve : Except ErrorValue α) :
    wrappedResolve args (.ok k) consume resolve = ⟨.error ⟨m, none, none⟩, 1, 0, 0⟩ := by
  unfold wrappedResolve
  rw [tryBlock_validate_error h k consume resolve]
  simp [validate_error_not_redis h]

theorem tryBlock_cases (args : RateLimitDirectiveArgs) (keyGen : Except ErrorValue String)
    (consume : String → Except ErrorValue Unit) (resolve : Except ErrorValue α) :
    (∃ e, keyGen = .error e ∧
      tryBlock args keyGen consume resolve = ⟨.error e, 1, 0, 0⟩) ∨
    (∃ k m, keyGen = .ok k ∧ validateDirectiveArgs args = .error m ∧
      tryBlock args keyGen consume resolve = ⟨.error ⟨m, none, none⟩, 1, 0, 0⟩) ∨
    (∃ k e ms, keyGen = .ok k ∧ validateDirectiveArgs args = .ok () ∧
      consume k = .error e ∧ e.msBeforeNext = some ms ∧
      tryBlock args keyGen consume resolve = ⟨.error (rateLimitedError ms), 1, 1, 0⟩) ∨
    (∃ k e, keyGen = .ok k ∧ validateDirectiveArgs args = .ok () ∧
      consume k = .error e ∧ e.msBeforeNext = none ∧
      tryBlock args keyGen consume resolve = ⟨.error e, 1, 1, 0⟩) ∨
    (∃ k, keyGen = .ok k ∧ validateDirectiveArgs args = .ok () ∧ consume k = .ok () ∧
      tryBlock args keyGen consume resolve = ⟨resolve, 1, 1, 1⟩) := by
  cases keyGen with
  | error e => exact .inl ⟨e, rfl, by simp only [tryBlock]⟩
  | ok k =>
    cases hv : validateDirectiveArgs args with
    | error m =>
      exact .inr (.inl ⟨k, m, rfl, rfl, by simp only [tryBlock, hv]⟩)
    | ok u =>
      cases u
      cases hc : consume k with
      | error e =>
        cases hms : e.msBeforeNext with
        | some ms =>
          exact .inr (.inr (.inl ⟨k, e, ms, rfl, rfl, hc, hms,
            by simp only [tryBlock, hv, hc, hms]⟩))
        | none =>
          exact .inr (.inr (.inr (.inl ⟨k, e, rfl, rfl, hc, hms,
            by simp only [tryBlock, hv, hc, hms]⟩)))
      | ok u =>
        cases u
        exact .inr (.inr (.inr (.inr ⟨k, rfl, rfl, hc,
          by simp only [tryBlock, hv, hc]⟩)))

/-- C1: for every directive argument pair, validation succeeds exactly when
both are positive integers with `limit ≤ 1000000` and
`duration ≤ 31536000`; outside those bounds validation throws and the
protected operation (and the consume call) are never invoked. -/
theorem claim_C1_validation_bounds (args : RateLimitDirectiveArgs) :
    (validateDirectiveArgs args = .ok () ↔
      (∃ l : Int, args.limit = .int l ∧ 1 ≤ l ∧ l ≤ 1000000) ∧
      (∃ d : Int, args.duration = .int d ∧ 1 ≤ d ∧ d ≤ 31536000)) ∧
    (∀ (m : String) (α : Type) (keyGen : Except ErrorValue String)
        (consume : String → Except ErrorValue Unit) (resolve : Except ErrorValue α),
      validateDirectiveArgs args = .error m →
      (wrappedResolve args keyGen consume resolve).resolveCalls = 0 ∧
      (wrappedResolve args keyGen consume resolve).consumeCalls = 0) := by
  refine ⟨validate_ok_iff args, fun m α keyGen consume resolve h => ?_⟩
  obtain ⟨-, h2, h3⟩ := wrappedResolve_counts args keyGen consume resolve
  rw [h3, h2]
  cases keyGen with
  | error e => exact ⟨rfl, rfl⟩
  | ok k => rw [tryBlock_validate_error h k consume resolve]; exact ⟨rfl, rfl⟩

/-- C1 witness: at `limit = 0` validation fails and the protected
operation is not invoked. -/
theorem claim_C1_validation_bounds_witness :
    (wrappedResolve invalidArgs (.ok "K") (fun _ => .ok ()) (.ok (0 : Nat))).resolveCalls = 0 :=
  ((claim_C1_validation_bounds invalidArgs).2
    "Invalid rate limit: 0. Must be a positive integer." Nat (.ok "K")
    (fun _ => .ok ()) (.ok 0) rfl).1

/-- C2: when `consume` rejects with an error carrying a numeric
`msBeforeNext`, the wrapper throws the rate-limited `GraphQLError` with
`retryAfter = ⌈msBeforeNext / 1000⌉` and the protected operation is not
invoked (`resolveCalls = 0`). -/
theorem claim_C2_quota_exceeded (args : RateLimitDirectiveArgs) (k : String)
    (e : ErrorValue) (ms : ℚ) (α : Type) (consume : String → Except ErrorValue Unit)
    (resolve : Except ErrorValue α)
    (hv : validateDirectiveArgs args = .ok ())
    (hc : consume k = .error e)
    (hms : e.msBeforeNext = some ms) :
    wrappedResolve args (.ok k) consume resolve =
      ⟨.error ⟨"Rate limit exceeded", none,
        some ⟨"RATE_LIMITED", 429, some ⌈ms / 1000⌉⟩⟩, 1, 1, 0⟩ := by
  simp only [wrappedResolve, tryBlock, hv, hc, hms, rateLimitedError,
    show strIncludes "Rate limit exceeded" "Redis" = false from rfl, Bool.false_eq_true,
    if_false]

/-- C2 witness: a rejection with `msBeforeNext = 5000` yields
`retryAfter = 5`. -/
theorem claim_C2_quota_exceeded_witness :
    wrappedResolve validArgs (.ok "K") (fun _ => .error ⟨"", some 5000, none⟩)
        (.ok (0 : Nat)) =
      ⟨.error ⟨"Rate limit exceeded", none,
        some ⟨"RATE_LIMITED", 429, some 5⟩⟩, 1, 1, 0⟩ := by
  have h := claim_C2_quota_exceeded validArgs "K" ⟨"", some 5000, none⟩ 5000 Nat
    (fun _ => .error ⟨"", some 5000, none⟩) (.ok 0) rfl rfl rfl
  have : ⌈(5000 : ℚ) / 1000⌉ = 5 := by norm_num
  rw [this] at h
  exact h

/-- C3 counterexample: `consume` rejects without `msBeforeNext` and with a
message not mentioning Redis; the wrapper re-throws that rejection
unchanged — it is not a `RATE_LIMIT_SERVICE_ERROR`/503 error (its
`extensions` are absent). -/
theorem claim_C3_counterexample :
    (wrappedResolve validArgs (.ok "K")
        (fun _ => .error ⟨"connection timeout", none, none⟩) (.ok (0 : Nat))).result =
      .error ⟨"connection timeout", none, none⟩ ∧
    (ErrorValue.extensions ⟨"connection timeout", none, none⟩) = none := by
  exact ⟨rfl, rfl⟩

/-- C3 (amended): when `consume` rejects without a numeric `msBeforeNext`,
the wrapper throws the `ServiceUnavailable` `GraphQLError`
(`RATE_LIMIT_SERVICE_ERROR`, 503) if the rejection's message contains
`"Redis"`, and otherwise re-throws the rejection unchanged; in both cases
the protected operation is not invoked. -/
theorem claim_C3_store_rejection (args : RateLimitDirectiveArgs) (k : String)
    (e : ErrorValue) (α : Type) (consume : String → Except ErrorValue Unit)
    (resolve : Except ErrorValue α)
    (hv : validateDirectiveArgs args = .ok ())
    (hc : consume k = .error e)
    (hms : e.msBeforeNext = none) :
    wrappedResolve args (.ok k) consume resolve =
      ⟨.error (if strIncludes e.message "Redis" then
        ⟨"Rate limiting service unavailable", none,
          some ⟨"RATE_LIMIT_SERVICE_ERROR", 503, none⟩⟩ else e), 1, 1, 0⟩ := by
  simp only [wrappedResolve, tryBlock, hv, hc, hms, serviceUnavailableError]
  split <;> simp_all [serviceUnavailableError]

/-- C3 witness: a rejection whose message contains `"Redis"` becomes the
503 `GraphQLError`. -/
theorem claim_C3_store_rejection_witness :
    wrappedResolve validArgs (.ok "K")
        (fun _ => .error ⟨"Redis connection failed", none, none⟩) (.ok (0 : Nat)) =
      ⟨.error ⟨"Rate limiting service unavailable", none,
        some ⟨"RATE_LIMIT_SERVICE_ERROR", 503, none⟩⟩, 1, 1, 0⟩ := by
  have h := claim_C3_store_rejection validArgs "K" ⟨"Redis connection failed", none, none⟩
    Nat (fun _ => .error ⟨"Redis connection failed", none, none⟩) (.ok 0) rfl rfl rfl
  rw [h]
  rfl

/-- C4 counterexample: validation, key derivation and consume all succeed,
and the protected operation throws a business-logic error whose message
happens to contain `"Redis"`; the wrapper reclassifies it into the 503
`GraphQLError` instead of propagating it unchanged. -/
theorem claim_C4_counterexample :
    (wrappedResolve validArgs (.ok "K") (fun _ => .ok ())
        (.error ⟨"Redis is my cat", none, none⟩) (α := Nat)).result =
      .error ⟨"Rate limiting service unavailable", none,
        some ⟨"RATE_LIMIT_SERVICE_ERROR", 503, none⟩⟩ ∧
    (⟨"Rate limiting service unavailable", none,
        some ⟨"RATE_LIMIT_SERVICE_ERROR", 503, none⟩⟩ : ErrorValue) ≠
      ⟨"Redis is my cat", none, none⟩ := by
  exact ⟨rfl, by decide⟩

/-- C4 (amended): when validation, key derivation and consume succeed and
the protected operation fails, the wrapper propagates that failure
unchanged unless its message contains `"Redis"`, in which case it is
reclassified into the `ServiceUnavailable` outcome; the protected operation
was invoked exactly once. -/
theorem claim_C4_op_failure (args : RateLimitDirectiveArgs) (k : String)
    (e : ErrorValue) (consume : String → Except ErrorValue Unit)
    (hv : validateDirectiveArgs args = .ok ())
    (hc : consume k = .ok ()) :
    wrappedResolve args (.ok k) consume (.error e : Except ErrorValue Nat) =
      ⟨.error (if strIncludes e.message "Redis" then
        ⟨"Rate limiting service unavailable", none,
          some ⟨"RATE_LIMIT_SERVICE_ERROR", 503, none⟩⟩ else e), 1, 1, 1⟩ := by
  simp only [wrappedResolve, tryBlock, hv, hc, serviceUnavailableError]
  split <;> simp_all [serviceUnavailableError]

/-- C4 witness: a business-logic failure not mentioning Redis propagates
unchanged. -/
theorem claim_C4_op_failure_witness :
    wrappedResolve validArgs (.ok "K") (fun _ => .ok ())
        (.error ⟨"Custom error", none, none⟩ : Except ErrorValue Nat) =
      ⟨.error ⟨"Custom error", none, none⟩, 1, 1, 1⟩ := by
  have h := claim_C4_op_failure validArgs "K" ⟨"Custom error", none, none⟩
    (fun _ => .ok ()) rfl rfl
  rw [h]
  rfl

/-- C7 counterexample: at invalid directive arguments (limit 0) the wrapper
fails with the configuration error, yet the key generator has been invoked
(`keyGenCalls = 1`): the code derives the key before validating. -/
theorem claim_C7_counterexample :
    validateDirectiveArgs invalidArgs =
      .error "Invalid rate limit: 0. Must be a positive integer." ∧
    (wrappedResolve invalidArgs (.ok "K") (fun _ => .ok ()) (.ok (0 : Nat))).keyGenCalls
      = 1 := by
  exact ⟨rfl, rfl⟩

/-- C7 (amended): within a wrapped-resolver invocation the key generator
runs before the quota validator: when the directive arguments are invalid,
the wrapper fails with the configuration error, the key generator has been
invoked once, and neither `consume` nor the protected operation is ever
invoked. -/
theorem claim_C7_keygen_before_validate (args : RateLimitDirectiveArgs) (m : String)
    (k : String) (α : Type) (consume : String → Except ErrorValue Unit)
    (resolve : Except ErrorValue α)
    (h : validateDirectiveArgs args = .error m) :
    wrappedResolve args (.ok k) consume resolve = ⟨.error ⟨m, none, none⟩, 1, 0, 0⟩ :=
  wrappedResolve_validate_error h k consume resolve

/-- C7 witness: the amended order at limit 0. -/
theorem claim_C7_keygen_before_validate_witness :
    wrappedResolve invalidArgs (.ok "K") (fun _ => .ok ()) (.ok (0 : Nat)) =
      ⟨.error ⟨"Invalid rate limit: 0. Must be a positive integer.", none, none⟩,
        1, 0, 0⟩ :=
  claim_C7_keygen_before_validate invalidArgs
    "Invalid rate limit: 0. Must be a positive integer." "K" Nat
    (fun _ => .ok ()) (.ok 0) rfl

/-- C8: assuming the collaborators' own failures are not pre-classified
(no directive-shaped `extensions`), every error surfaced by the wrapper
that carries `extensions` has either code `RATE_LIMITED` with HTTP status
429 and a present `retryAfter`, or code `RATE_LIMIT_SERVICE_ERROR` with
HTTP status 503 and no `retryAfter`. -/
theorem claim_C8_error_payload_shape (args : RateLimitDirectiveArgs)
    (keyGen : Except ErrorValue String) (consume : String → Except ErrorValue Unit)
    (α : Type) (resolve : Except ErrorValue α)
    (h1 : ∀ e, keyGen = .error e → e.extensions = none)
    (h2 : ∀ k e, consume k = .error e → e.extensions = none)
    (h3 : ∀ e, resolve = .error e → e.extensions = none)
    (e : ErrorValue) (ext : Extensions)
    (he : (wrappedResolve args keyGen consume resolve).result = .error e)
    (hx : e.extensions = some ext) :
    (ext.code = "RATE_LIMITED" ∧ ext.httpStatus = 429 ∧ ∃ r, ext.retryAfter = some r) ∨
    (ext.code = "RATE_LIMIT_SERVICE_ERROR" ∧ ext.httpStatus = 503 ∧
      ext.retryAfter = none) := by
  have shape503 : ∀ h : e = serviceUnavailableError,
      (ext.code = "RATE_LIMITED" ∧ ext.httpStatus = 429 ∧ ∃ r, ext.retryAfter = some r) ∨
      (ext.code = "RATE_LIMIT_SERVICE_ERROR" ∧ ext.httpStatus = 503 ∧
        ext.retryAfter = none) := by
    intro h
    subst h
    rw [serviceUnavailableError] at hx
    simp only [Option.some.injEq] at hx
    subst hx
    exact .inr ⟨rfl, rfl, rfl⟩
  rcases tryBlock_cases args keyGen consume resolve with
    ⟨e', hkg, ht⟩ | ⟨k, m, hkg, hv, ht⟩ | ⟨k, e', ms, hkg, hv, hc, hms, ht⟩ |
    ⟨k, e', hkg, hv, hc, hms, ht⟩ | ⟨k, hkg, hv, hc, ht⟩
  · simp only [wrappedResolve, ht] at he
    split at he
    · exact shape503 (by injection he with he; exact he.symm)
    · injection he with he
      rw [← he] at hx
      rw [h1 e' hkg] at hx
      exact absurd hx (by simp)
  · simp only [wrappedResolve, ht] at he
    split at he
    · exact shape503 (by injection he with he; exact he.symm)
    · injection he with he
      rw [← he] at hx
      exact absurd hx (by simp)
  · simp only [wrappedResolve, ht] at he
    split at he
    · exact shape503 (by injection he with he; exact he.symm)
    · injection he with he
      rw [← he] at hx
      rw [rateLimitedError] at hx
      simp only [Option.some.injEq] at hx
      subst hx
      exact .inl ⟨rfl, rfl, ⟨_, rfl⟩⟩
  · simp only [wrappedResolve, ht] at he
    split at he
    · exact shape503 (by injection he with he; exact he.symm)
    · injection he with he
      rw [← he] at hx
      rw [h2 k e' hc] at hx
      exact absurd hx (by simp)
  · simp only [wrappedResolve, ht] at he
    cases hres : resolve with
    | ok v =>
      rw [hres] at he
      exact absurd he (by simp)
    | error e' =>
      rw [hres] at he
      have he2 : (if strIncludes e'.message "Redis" = true then
          (⟨.error serviceUnavailableError, 1, 1, 1⟩ : CallResult α)
        else ⟨.error e', 1, 1, 1⟩).result = .error e := he
      split at he2
      · exact shape503 (by injection he2 with he2; exact he2.symm)
      · injection he2 with he2
        rw [← he2] at hx
        rw [h3 e' hres] at hx
        exact absurd hx (by simp)

/-- C8 witness: the service-unavailable branch produces the 503 shape. -/
theorem claim_C8_error_payload_shape_witness :
    ((⟨"RATE_LIMIT_SERVICE_ERROR", 503, none⟩ : Extensions).code = "RATE_LIMITED" ∧
      (⟨"RATE_LIMIT_SERVICE_ERROR", 503, none⟩ : Extensions).httpStatus = 429 ∧
      ∃ r, (⟨"RATE_LIMIT_SERVICE_ERROR", 503, none⟩ : Extensions).retryAfter = some r) ∨
    ((⟨"RATE_LIMIT_SERVICE_ERROR", 503, none⟩ : Extensions).code =
        "RATE_LIMIT_SERVICE_ERROR" ∧
      (⟨"RATE_LIMIT_SERVICE_ERROR", 503, none⟩ : Extensions).httpStatus = 503 ∧
      (⟨"RATE_LIMIT_SERVICE_ERROR", 503, none⟩ : Extensions).retryAfter = none) :=
  claim_C8_error_payload_shape validArgs (.ok "K")
    (fun _ => .error ⟨"Redis connection failed", none, none⟩) Nat (.ok 0)
    (fun _ h => by cases h) (fun k e h => by cases h; rfl) (fun _ h => by cases h)
    ⟨"Rate limiting service unavailable", none,
      some ⟨"RATE_LIMIT_SERVICE_ERROR", 503, none⟩⟩
    ⟨"RATE_LIMIT_SERVICE_ERROR", 503, none⟩ rfl rfl

/-! ### Key generators -/

theorem append_sep_inj {sep : Char} :
    ∀ {a c b d : List Char}, sep ∉ a → sep ∉ c →
      a ++ sep :: b = c ++ sep :: d → a = c ∧ b = d := by
  intro a
  induction a with
  | nil =>
    intro c b d _ hc h
    cases c with
    | nil => simpa using h
    | cons y ys =>
      rw [List.nil_append, List.cons_append, List.cons_eq_cons] at h
      exact absurd (h.1 ▸ List.mem_cons_self y ys) hc
  | cons x xs ih =>
    intro c b d ha hc h
    cases c with
    | nil =>
      rw [List.nil_append, List.cons_append, List.cons_eq_cons] at h
      exact absurd (h.1 ▸ List.mem_cons_self x xs) ha
    | cons y ys =>
      rw [List.cons_append, List.cons_append, List.cons_eq_cons] at h
      obtain ⟨hxy, h⟩ := h
      obtain ⟨h1, h2⟩ := ih (fun hm => ha (List.mem_cons_of_mem _ hm))
        (fun hm => hc (List.mem_cons_of_mem _ hm)) h
      exact ⟨by rw [hxy, h1], h2⟩

theorem string_eq_of_data_eq {s t : String} (h : s.data = t.data) : s = t := by
  cases s
  cases t
  exact congrArg String.mk h

/-- C9: the default key generator depends only on `(parentTypeName,
fieldName)`: provided the parent type names contain no `'.'` (GraphQL type
names never do), two invocations — with arbitrary directive arguments,
sources, resolver arguments and contexts — produce equal keys exactly when
their parent type name and field name agree. -/
theorem claim_C9_default_key_generator (da1 da2 : RateLimitDirectiveArgs)
    (s1 : σ₁) (s2 : σ₂) (r1 : ρ₁) (r2 : ρ₂) (c1 : γ₁) (c2 : γ₂)
    (i1 i2 : ResolveInfo)
    (h1 : '.' ∉ i1.parentTypeName.data) (h2 : '.' ∉ i2.parentTypeName.data) :
    defaultKeyGenerator da1 s1 r1 c1 i1 = defaultKeyGenerator da2 s2 r2 c2 i2 ↔
      i1.parentTypeName = i2.parentTypeName ∧ i1.fieldName = i2.fieldName := by
  constructor
  · intro h
    unfold defaultKeyGenerator at h
    have hd := String.data_eq_of_eq h
    rw [String.data_append, String.data_append, String.data_append,
      String.data_append, List.append_assoc, List.append_assoc] at hd
    have hd' : i1.parentTypeName.data ++ '.' :: i1.fieldName.data =
        i2.parentTypeName.data ++ '.' :: i2.fieldName.data := hd
    obtain ⟨hp, hf⟩ := append_sep_inj h1 h2 hd'
    exact ⟨string_eq_of_data_eq hp, string_eq_of_data_eq hf⟩
  · rintro ⟨hp, hf⟩
    unfold defaultKeyGenerator
    rw [hp, hf]

/-- C9 witness: identical `(parentTypeName, fieldName)` yields identical
keys across otherwise different invocations. -/
theorem claim_C9_default_key_generator_witness :
    defaultKeyGenerator validArgs (0 : Nat) (1 : Nat) (2 : Nat) ⟨"Query", "test"⟩ =
      defaultKeyGenerator invalidArgs "src" "args" "ctx" ⟨"Query", "test"⟩ :=
  (claim_C9_default_key_generator validArgs invalidArgs 0 1 2 "src" "args" "ctx"
    ⟨"Query", "test"⟩ ⟨"Query", "test"⟩ (by decide) (by decide)).mpr ⟨rfl, rfl⟩

/-- C10: when every identifier supplied to the composite key generator is
null/undefined, the generated key is `":"` followed by
`parentTypeName "." fieldName` — the empty identifier prefix is not
omitted. -/
theorem claim_C10_composite_all_null (getIdentifiers : γ → List (String × Option String))
    (da : RateLimitDirectiveArgs) (s : σ) (r : ρ) (ctx : γ) (info : ResolveInfo)
    (h : ∀ p ∈ getIdentifiers ctx, p.2 = none) :
    createCompositeKeyGenerator getIdentifiers da s r ctx info =
      ":" ++ info.parentTypeName ++ "." ++ info.fieldName := by
  unfold createCompositeKeyGenerator
  have hf : (getIdentifiers ctx).filter (fun p => p.2.isSome) = [] := by
    rw [List.filter_eq_nil_iff]
    intro p hp
    rw [h p hp]
    exact Bool.false_ne_true
  simp only [createCompositeKeyGenerator, hf, List.map_nil]
  rw [show String.intercalate ":" [] = "" from rfl, String.empty_append]

/-- C10 witness: two null identifiers produce the key `":Query.test"`. -/
theorem claim_C10_composite_all_null_witness :
    createCompositeKeyGenerator (fun _ => [("userId", none), ("apiKey", none)])
        validArgs (0 : Nat) (1 : Nat) () ⟨"Query", "test"⟩ = ":Query.test" := by
  rw [claim_C10_composite_all_null (fun _ => [("userId", none), ("apiKey", none)])
    validArgs 0 1 () ⟨"Query", "test"⟩ (by simp)]
  rfl

/-! ### Injectivity of the decimal rendering -/

theorem digitVal_digitChar {k : Nat} (h : k < 10) : digitVal (digitChar k) = k := by
  interval_cases k <;> rfl

theorem natDigitsCore_foldl (fuel : Nat) :
    ∀ (n : Nat) (acc : List Char) (a : Nat), n < fuel →
      ∃ kp : Nat,
        (natDigitsCore fuel n acc).foldl (fun x c => 10 * x + digitVal c) a =
          acc.foldl (fun x c => 10 * x + digitVal c) (a * 10 ^ kp + n) ∧
        n < 10 ^ kp := by
  induction fuel with
  | zero => exact fun n acc a h => absurd h (Nat.not_lt_zero n)
  | succ fuel ih =>
    intro n acc a h
    rw [natDigitsCore]
    by_cases hn : n < 10
    · rw [if_pos hn]
      refine ⟨1, ?_, by simpa using hn⟩
      rw [List.foldl_cons, digitVal_digitChar hn]
      congr 1
      ring
    · rw [if_neg hn]
      obtain ⟨kp, hfold, hlt⟩ := ih (n / 10) (digitChar (n % 10) :: acc) a (by omega)
      refine ⟨kp + 1, ?_, ?_⟩
      · rw [hfold, List.foldl_cons, digitVal_digitChar (Nat.mod_lt n (by norm_num))]
        congr 1
        calc 10 * (a * 10 ^ kp + n / 10) + n % 10
            = a * (10 ^ kp * 10) + (10 * (n / 10) + n % 10) := by ring
          _ = a * 10 ^ (kp + 1) + n := by rw [pow_succ, Nat.div_add_mod]
      · calc n < 10 * (n / 10 + 1) := by omega
          _ ≤ 10 * 10 ^ kp := Nat.mul_le_mul_left 10 hlt
          _ = 10 ^ (kp + 1) := by rw [pow_succ]; ring

theorem digitsVal_natRepr (n : Nat) : digitsVal (natRepr n).data = n := by
  obtain ⟨kp, hfold, -⟩ :=
    natDigitsCore_foldl (n + 1) n [] 0 (Nat.lt_succ_self n)
  have : digitsVal (natRepr n).data =
      ([] : List Char).foldl (fun x c => 10 * x + digitVal c) (0 * 10 ^ kp + n) := hfold
  simpa using this

theorem natRepr_inj {n m : Nat} (h : natRepr n = natRepr m) : n = m := by
  have hv := congrArg (fun s => digitsVal s.data) h
  simpa [digitsVal_natRepr] using hv

theorem colon_not_mem_natRepr {n : Nat} : ':' ∉ (natRepr n).data := by
  intro h
  obtain ⟨k, hk⟩ := mem_natRepr h
  exact (digitChar_ne k).2.1 hk.symm

/-- The cache key `` `${duration}:${limit}` `` is injective on valid
(positive-integer) directive arguments. -/
theorem cacheKey_inj {a1 a2 : RateLimitDirectiveArgs}
    (h1 : validateDirectiveArgs a1 = .ok ()) (h2 : validateDirectiveArgs a2 = .ok ())
    (h : cacheKey a1 = cacheKey a2) : a1 = a2 := by
  obtain ⟨ad1, al1⟩ := a1
  obtain ⟨ad2, al2⟩ := a2
  obtain ⟨⟨l1, hl1, hl1p, -⟩, ⟨d1, hd1, hd1p, -⟩⟩ := (validate_ok_iff _).mp h1
  obtain ⟨⟨l2, hl2, hl2p, -⟩, ⟨d2, hd2, hd2p, -⟩⟩ := (validate_ok_iff _).mp h2
  simp only at hl1 hd1 hl2 hd2
  subst hl1 hd1 hl2 hd2
  obtain ⟨dn1, rfl⟩ := Int.eq_ofNat_of_zero_le (by omega : (0 : ℤ) ≤ d1)
  obtain ⟨dn2, rfl⟩ := Int.eq_ofNat_of_zero_le (by omega : (0 : ℤ) ≤ d2)
  obtain ⟨ln1, rfl⟩ := Int.eq_ofNat_of_zero_le (by omega : (0 : ℤ) ≤ l1)
  obtain ⟨ln2, rfl⟩ := Int.eq_ofNat_of_zero_le (by omega : (0 : ℤ) ≤ l2)
  have hj : ∀ n : Nat, jsNumRepr (.int (n : ℤ)) = natRepr n := fun n => rfl
  rw [cacheKey, cacheKey] at h
  simp only at h
  rw [hj, hj, hj, hj] at h
  have hd := String.data_eq_of_eq h
  rw [String.data_append, String.data_append, String.data_append, String.data_append,
    List.append_assoc, List.append_assoc] at hd
  have hd' : (natRepr dn1).data ++ ':' :: (natRepr ln1).data =
      (natRepr dn2).data ++ ':' :: (natRepr ln2).data := hd
  obtain ⟨hdd, hll⟩ := append_sep_inj colon_not_mem_natRepr colon_not_mem_natRepr hd'
  rw [natRepr_inj (string_eq_of_data_eq hdd), natRepr_inj (string_eq_of_data_eq hll)]

/-! ### The limiter registry (entry-list lemmas) -/

theorem eraseEntry_sublist (k : String) : ∀ l : Entries, List.Sublist (eraseEntry k l) l
  | [] => List.Sublist.refl []
  | (k', v) :: rest => by
    rw [eraseEntry]
    split
    · exact List.sublist_cons_self _ _
    · exact List.Sublist.cons₂ _ (eraseEntry_sublist k rest)

theorem lookupEntry_mem {k : String} :
    ∀ {l : Entries} {v : Nat}, lookupEntry k l = some v → (k, v) ∈ l := by
  intro l
  induction l with
  | nil => intro v h; cases h
  | cons p rest ih =>
    obtain ⟨k', v'⟩ := p
    intro v h
    rw [lookupEntry] at h
    by_cases hk : k' = k
    · rw [if_pos hk] at h
      injection h with h
      subst hk
      subst h
      exact List.mem_cons_self _ _
    · rw [if_neg hk] at h
      exact List.mem_cons_of_mem _ (ih h)

theorem lookupEntry_eq_none {k : String} :
    ∀ {l : Entries}, lookupEntry k l = none ↔ k ∉ l.map Prod.fst := by
  intro l
  induction l with
  | nil => simp [lookupEntry]
  | cons p rest ih =>
    obtain ⟨k', v'⟩ := p
    rw [lookupEntry]
    by_cases hk : k' = k
    · simp [hk]
    · rw [if_neg hk, List.map_cons, List.mem_cons, ih]
      constructor
      · intro h h1
        rcases h1 with h1 | h1
        · exact hk h1.symm
        · exact h h1
      · intro h h1
        exact h (.inr h1)

theorem not_mem_keys_eraseEntry {k : String} :
    ∀ {l : Entries}, (l.map Prod.fst).Nodup → k ∉ (eraseEntry k l).map Prod.fst := by
  intro l
  induction l with
  | nil => intro _ h; simp [eraseEntry] at h
  | cons p rest ih =>
    obtain ⟨k', v'⟩ := p
    intro hnd
    rw [List.map_cons, List.nodup_cons] at hnd
    rw [eraseEntry]
    by_cases hk : k' = k
    · rw [if_pos hk]
      subst hk
      exact hnd.1
    · rw [if_neg hk, List.map_cons]
      intro hmem
      rcases List.mem_cons.mp hmem with h1 | h1
      · exact hk h1.symm
      · exact ih hnd.2 h1

theorem eraseEntry_length {k : String} :
    ∀ {l : Entries} {v : Nat}, lookupEntry k l = some v →
      (eraseEntry k l).length + 1 = l.length := by
  intro l
  induction l with
  | nil => intro v h; cases h
  | cons p rest ih =>
    obtain ⟨k', v'⟩ := p
    intro v h
    by_cases hk : k' = k
    · rw [eraseEntry, if_pos hk]
      rfl
    · rw [lookupEntry, if_neg hk] at h
      rw [eraseEntry, if_neg hk]
      have := ih h
      simp only [List.length_cons]
      omega

theorem lookupEntry_of_mem {k : String} {v : Nat} :
    ∀ {l : Entries}, (l.map Prod.fst).Nodup → (k, v) ∈ l → lookupEntry k l = some v := by
  intro l
  induction l with
  | nil => intro _ h; cases h
  | cons p rest ih =>
    obtain ⟨k', v'⟩ := p
    intro hnd hmem
    rw [List.map_cons, List.nodup_cons] at hnd
    rw [lookupEntry]
    rcases List.mem_cons.mp hmem with h1 | h1
    · cases h1
      rw [if_pos rfl]
    · by_cases hk : k' = k
      · subst hk
        exact absurd (List.mem_map_of_mem Prod.fst h1) hnd.1
      · rw [if_neg hk]
        exact ih hnd.2 h1

theorem not_mem_values_eraseEntry {k : String} :
    ∀ {l : Entries} {v : Nat}, (l.map Prod.fst).Nodup → (l.map Prod.snd).Nodup →
      lookupEntry k l = some v → v ∉ (eraseEntry k l).map Prod.snd := by
  intro l
  induction l with
  | nil => intro v _ _ h; cases h
  | cons p rest ih =>
    obtain ⟨k', v'⟩ := p
    intro v hks hvs h
    rw [List.map_cons, List.nodup_cons] at hks hvs
    by_cases hk : k' = k
    · rw [lookupEntry, if_pos hk] at h
      injection h with h
      rw [eraseEntry, if_pos hk]
      subst h
      exact hvs.1
    · rw [lookupEntry, if_neg hk] at h
      rw [eraseEntry, if_neg hk, List.map_cons]
      intro hmem
      rcases List.mem_cons.mp hmem with h1 | h1
      · have hm : v ∈ List.map Prod.snd rest :=
          List.mem_map_of_mem Prod.snd (lookupEntry_mem h : (k, v) ∈ rest)
        rw [h1] at hm
        exact hvs.1 hm
      · exact ih hks.2 hvs.2 h h1

theorem evictIfFull_sublist (entries : Entries) :
    List.Sublist (evictIfFull entries) entries := by
  rw [evictIfFull]
  split
  · split
    · split
      · exact List.Sublist.refl _
      · exact eraseEntry_sublist _ _
    · exact List.Sublist.refl _
  · exact List.Sublist.refl _

theorem evictIfFull_not_full {entries : Entries}
    (h : entries.length < MAX_LIMITER_CACHE_SIZE) : evictIfFull entries = entries := by
  rw [evictIfFull, if_neg (by omega)]

theorem evictIfFull_full {k0 : String} {v0 : Nat} {rest : Entries} (hk : k0 ≠ "")
    (hlen : ((k0, v0) :: rest).length = MAX_LIMITER_CACHE_SIZE) :
    evictIfFull ((k0, v0) :: rest) = rest := by
  rw [evictIfFull, if_pos (by rw [hlen])]
  simp only [List.head?_cons]
  rw [if_neg hk, eraseEntry, if_pos rfl]

theorem evictIfFull_length {entries : Entries}
    (hlen : entries.length ≤ MAX_LIMITER_CACHE_SIZE)
    (hne : ∀ p ∈ entries, p.1 ≠ "") :
    (evictIfFull entries).length + 1 ≤ MAX_LIMITER_CACHE_SIZE := by
  by_cases hfull : entries.length = MAX_LIMITER_CACHE_SIZE
  · cases entries with
    | nil => simp [MAX_LIMITER_CACHE_SIZE] at hfull
    | cons p rest =>
      obtain ⟨k0, v0⟩ := p
      rw [evictIfFull_full (hne (k0, v0) (List.mem_cons_self _ _)) hfull]
      rw [List.length_cons] at hfull
      omega
  · rw [evictIfFull_not_full (by omega)]
    omega

theorem cacheKey_ne_empty (args : RateLimitDirectiveArgs) : cacheKey args ≠ "" := by
  intro h
  have hd := congrArg (fun s => s.data.length) h
  simp only [cacheKey, String.data_append, List.length_append,
    show (":" : String).data = [':'] from rfl,
    show ("" : String).data = ([] : List Char) from rfl,
    List.length_cons, List.length_nil] at hd
  omega

theorem getLimiter_cases (args : RateLimitDirectiveArgs) (st : LimiterCache) :
    (∃ m, validateDirectiveArgs args = .error m ∧ getLimiter args st = .error m) ∨
    (∃ v, validateDirectiveArgs args = .ok () ∧
      lookupEntry (cacheKey args) st.entries = some v ∧
      getLimiter args st = .ok (v,
        ⟨eraseEntry (cacheKey args) st.entries ++ [(cacheKey args, v)], st.nextId⟩)) ∨
    (validateDirectiveArgs args = .ok () ∧
      lookupEntry (cacheKey args) st.entries = none ∧
      getLimiter args st = .ok (st.nextId,
        ⟨evictIfFull st.entries ++ [(cacheKey args, st.nextId)], st.nextId + 1⟩)) := by
  cases hv : validateDirectiveArgs args with
  | error m => exact .inl ⟨m, rfl, by simp only [getLimiter, hv]⟩
  | ok u =>
    cases u
    cases hl : lookupEntry (cacheKey args) st.entries with
    | some v =>
      exact .inr (.inl ⟨v, rfl, rfl, by simp only [getLimiter, hv, hl]⟩)
    | none =>
      exact .inr (.inr ⟨rfl, rfl, by simp only [getLimiter, hv, hl]⟩)

/-- Inversion of a successful `getLimiter` call: the arguments were valid,
the returned entry sits at the most-recently-used end of the new state, and
the returned instance is either one already cached or the freshly
constructed one. -/
theorem getLimiter_ok {args : RateLimitDirectiveArgs} {st : LimiterCache} {v : Nat}
    {st' : LimiterCache} (h : getLimiter args st = .ok (v, st')) :
    validateDirectiveArgs args = .ok () ∧
    (cacheKey args, v) ∈ st'.entries ∧
    st'.entries.getLast? = some (cacheKey args, v) ∧
    (v ∈ st.entries.map Prod.snd ∨ v = st.nextId) := by
  rcases getLimiter_cases args st with ⟨m, hv, hg⟩ | ⟨w, hv, hl, hg⟩ | ⟨hv, hl, hg⟩
  · rw [hg] at h
    cases h
  · rw [hg] at h
    injection h with h
    rw [Prod.ext_iff] at h
    obtain ⟨hw, hst⟩ := h
    simp only at hw hst
    subst hw
    subst hst
    refine ⟨hv, List.mem_append_right _ (List.mem_singleton.mpr rfl), ?_, ?_⟩
    · exact List.getLast?_concat _
    · exact .inl (List.mem_map_of_mem Prod.snd (lookupEntry_mem hl))
  · rw [hg] at h
    injection h with h
    rw [Prod.ext_iff] at h
    obtain ⟨hw, hst⟩ := h
    simp only at hw hst
    subst hw
    subst hst
    exact ⟨hv, List.mem_append_right _ (List.mem_singleton.mpr rfl),
      List.getLast?_concat _, .inr rfl⟩

theorem getLimiter_wf {args : RateLimitDirectiveArgs} {st : LimiterCache} {v : Nat}
    {st' : LimiterCache} (hwf : WFCache st) (h : getLimiter args st = .ok (v, st')) :
    WFCache st' := by
  obtain ⟨hlen, hne, hkeys, hvals, hid⟩ := hwf
  rcases getLimiter_cases args st with ⟨m, hv, hg⟩ | ⟨w, hv, hl, hg⟩ | ⟨hv, hl, hg⟩
  · rw [hg] at h
    cases h
  · rw [hg] at h
    injection h with h
    rw [Prod.ext_iff] at h
    obtain ⟨hw, hst⟩ := h
    simp only at hw hst
    subst hw
    subst hst
    have hsub := eraseEntry_sublist (cacheKey args) st.entries
    refine ⟨?_, ?_, ?_, ?_, ?_⟩
    · rw [List.length_append, List.length_singleton]
      rw [eraseEntry_length hl]
      exact hlen
    · intro p hp
      rcases List.mem_append.mp hp with hp | hp
      · exact hne p (hsub.subset hp)
      · rw [List.mem_singleton.mp hp]
        exact cacheKey_ne_empty args
    · rw [List.map_append, List.map_singleton, List.nodup_append]
      refine ⟨hkeys.sublist (hsub.map Prod.fst), List.nodup_singleton _, ?_⟩
      intro a ha hb
      rw [List.mem_singleton.mp hb] at ha
      exact not_mem_keys_eraseEntry hkeys ha
    · rw [List.map_append, List.map_singleton, List.nodup_append]
      refine ⟨hvals.sublist (hsub.map Prod.snd), List.nodup_singleton _, ?_⟩
      intro a ha hb
      rw [List.mem_singleton.mp hb] at ha
      exact not_mem_values_eraseEntry hkeys hvals hl ha
    · intro p hp
      rcases List.mem_append.mp hp with hp | hp
      · exact hid p (hsub.subset hp)
      · rw [List.mem_singleton.mp hp]
        exact hid _ (lookupEntry_mem hl)
  · rw [hg] at h
    injection h with h
    rw [Prod.ext_iff] at h
    obtain ⟨hw, hst⟩ := h
    simp only at hw hst
    subst hw
    subst hst
    have hsub := evictIfFull_sublist st.entries
    have hnotmem : cacheKey args ∉ st.entries.map Prod.fst := lookupEntry_eq_none.mp hl
    refine ⟨?_, ?_, ?_, ?_, ?_⟩
    · rw [List.length_append, List.length_singleton]
      exact evictIfFull_length hlen hne
    · intro p hp
      rcases List.mem_append.mp hp with hp | hp
      · exact hne p (hsub.subset hp)
      · rw [List.mem_singleton.mp hp]
        exact cacheKey_ne_empty args
    · rw [List.map_append, List.map_singleton, List.nodup_append]
      refine ⟨hkeys.sublist (hsub.map Prod.fst), List.nodup_singleton _, ?_⟩
      intro a ha hb
      rw [List.mem_singleton.mp hb] at ha
      exact hnotmem ((hsub.map Prod.fst).subset ha)
    · rw [List.map_append, List.map_singleton, List.nodup_append]
      refine ⟨hvals.sublist (hsub.map Prod.snd), List.nodup_singleton _, ?_⟩
      intro a ha hb
      rw [List.mem_singleton.mp hb] at ha
      obtain ⟨p, hp, hps⟩ := List.mem_map.mp ((hsub.map Prod.snd).subset ha)
      exact absurd (hps ▸ hid p hp) (lt_irrefl _)
    · intro p hp
      rcases List.mem_append.mp hp with hp | hp
      · exact Nat.lt_succ_of_lt (hid p (hsub.subset hp))
      · rw [List.mem_singleton.mp hp]
        exact Nat.lt_succ_self _

theorem wf_initCache : WFCache initCache := by
  refine ⟨?_, ?_, ?_, ?_, ?_⟩ <;> simp [initCache, MAX_LIMITER_CACHE_SIZE]

theorem wf_runCalls (seq : List RateLimitDirectiveArgs) :
    ∀ st, WFCache st → WFCache (runCalls seq st) := by
  induction seq with
  | nil => exact fun st h => h
  | cons a rest ih =>
    intro st h
    rw [runCalls]
    cases hg : getLimiter a st with
    | error m => exact ih st h
    | ok p =>
      obtain ⟨v, st'⟩ := p
      exact ih st' (getLimiter_wf h hg)

theorem mem_eraseEntry_of_ne {k' : String} :
    ∀ {l : Entries} {p : String × Nat}, p ∈ l → p.1 ≠ k' → p ∈ eraseEntry k' l := by
  intro l
  induction l with
  | nil => intro p h; cases h
  | cons q rest ih =>
    obtain ⟨kq, vq⟩ := q
    intro p hp hne
    rw [eraseEntry]
    by_cases hk : kq = k'
    · rw [if_pos hk]
      rcases List.mem_cons.mp hp with h1 | h1
      · exact absurd (h1 ▸ hk) hne
      · exact h1
    · rw [if_neg hk]
      rcases List.mem_cons.mp hp with h1 | h1
      · rw [h1]
        exact List.mem_cons_self _ _
      · exact List.mem_cons_of_mem _ (ih h1 hne)

theorem evictIfFull_eq_or (entries : Entries) :
    evictIfFull entries = entries ∨
      ∃ p rest, entries = p :: rest ∧ evictIfFull entries = rest := by
  cases entries with
  | nil => exact .inl rfl
  | cons p rest =>
    obtain ⟨k0, v0⟩ := p
    rw [evictIfFull]
    by_cases hfull : MAX_LIMITER_CACHE_SIZE ≤ ((k0, v0) :: rest).length
    · rw [if_pos hfull]
      simp only [List.head?_cons]
      by_cases hk : k0 = ""
      · rw [if_pos hk]
        exact .inl rfl
      · rw [if_neg hk, eraseEntry, if_pos rfl]
        exact .inr ⟨(k0, v0), rest, rfl, rfl⟩
    · rw [if_neg hfull]
      exact .inl rfl

/-- A cached entry survives a successful `getLimiter` call as long as its
key is still cached afterwards (hits re-append the identical pair,
unrelated keys are untouched, and a re-created key would first have had to
vanish). -/
theorem getLimiter_preserves_entry {a : RateLimitDirectiveArgs} {st : LimiterCache}
    {w : Nat} {st₁ : LimiterCache} {k : String} {v : Nat} (hwf : WFCache st)
    (hmem : (k, v) ∈ st.entries) (hg : getLimiter a st = .ok (w, st₁))
    (hk : k ∈ st₁.entries.map Prod.fst) : (k, v) ∈ st₁.entries := by
  rcases getLimiter_cases a st with ⟨m, hv, hgg⟩ | ⟨u, hv, hl, hgg⟩ | ⟨hv, hl, hgg⟩
  · rw [hgg] at hg
    cases hg
  · rw [hgg] at hg
    injection hg with hg
    rw [Prod.ext_iff] at hg
    obtain ⟨hw, hst⟩ := hg
    simp only at hw hst
    subst hst
    by_cases hkey : cacheKey a = k
    · subst hkey
      have hlv : lookupEntry (cacheKey a) st.entries = some v :=
        lookupEntry_of_mem hwf.2.2.1 hmem
      rw [hl] at hlv
      injection hlv with hlv
      exact List.mem_append_right _ (by rw [hlv]; exact List.mem_singleton.mpr rfl)
    · exact List.mem_append_left _
        (mem_eraseEntry_of_ne hmem (fun hc => hkey hc.symm))
  · rw [hgg] at hg
    injection hg with hg
    rw [Prod.ext_iff] at hg
    obtain ⟨hw, hst⟩ := hg
    simp only at hw hst
    subst hst
    have hkey : cacheKey a ≠ k := by
      intro hc
      have : k ∈ st.entries.map Prod.fst := List.mem_map_of_mem Prod.fst hmem
      exact (hc ▸ lookupEntry_eq_none.mp hl) this
    have hkevict : k ∈ (evictIfFull st.entries).map Prod.fst := by
      have hk' : k ∈ (evictIfFull st.entries ++ [(cacheKey a, st.nextId)]).map Prod.fst := hk
      rw [List.map_append] at hk'
      rcases List.mem_append.mp hk' with h1 | h1
      · exact h1
      · rw [List.map_singleton] at h1
        exact absurd (List.mem_singleton.mp h1).symm hkey
    show (k, v) ∈ evictIfFull st.entries ++ [(cacheKey a, st.nextId)]
    rcases evictIfFull_eq_or st.entries with hev | ⟨p, rest, hent, hev⟩
    · rw [hev]
      exact List.mem_append_left _ hmem
    · obtain ⟨k0, v0⟩ := p
      refine List.mem_append_left _ ?_
      rw [hev]
      rw [hev] at hkevict
      rw [hent] at hmem
      rcases List.mem_cons.mp hmem with h1 | h1
      · have hknd := hwf.2.2.1
        rw [hent, List.map_cons, List.nodup_cons] at hknd
        have hk0 : k = k0 := congrArg Prod.fst h1
        rw [hk0] at hkevict
        exact absurd hkevict hknd.1
      · exact h1

/-- A cached entry kept (never evicted) through a call sequence is still
cached, unchanged, at the end. -/
theorem entry_kept {k : String} {v : Nat} :
    ∀ (seq : List RateLimitDirectiveArgs) (st : LimiterCache), WFCache st →
      (k, v) ∈ st.entries → keyKept k seq st → (k, v) ∈ (runCalls seq st).entries := by
  intro seq
  induction seq with
  | nil => exact fun st _ hmem _ => hmem
  | cons a rest ih =>
    intro st hwf hmem hkept
    rw [keyKept] at hkept
    rw [runCalls]
    cases hg : getLimiter a st with
    | error m =>
      rw [hg] at hkept
      exact ih st hwf hmem hkept
    | ok p =>
      obtain ⟨w, st₁⟩ := p
      rw [hg] at hkept
      have hkept' : k ∈ st₁.entries.map Prod.fst ∧ keyKept k rest st₁ := hkept
      exact ih st₁ (getLimiter_wf hwf hg)
        (getLimiter_preserves_entry hwf hmem hg hkept'.1) hkept'.2

/-- Each successful `getLimiter` call returns an instance id recorded (in
the ghost assignment) for exactly its own cache key, and only extends the
assignment. -/
theorem getLimiter_assigns {a : RateLimitDirectiveArgs} {st : LimiterCache} {w : Nat}
    {st₁ : LimiterCache} {f : Nat → Option String} (hwf : WFCache st)
    (hA : Assigns f st) (hg : getLimiter a st = .ok (w, st₁)) :
    ∃ f₁, Assigns f₁ st₁ ∧ f₁ w = some (cacheKey a) ∧
      ∀ n s, f n = some s → f₁ n = some s := by
  rcases getLimiter_cases a st with ⟨m, hv, hgg⟩ | ⟨u, hv, hl, hgg⟩ | ⟨hv, hl, hgg⟩
  · rw [hgg] at hg
    cases hg
  · rw [hgg] at hg
    injection hg with hg
    rw [Prod.ext_iff] at hg
    obtain ⟨hw, hst⟩ := hg
    simp only at hw hst
    subst hw
    subst hst
    refine ⟨f, ⟨?_, fun n h => hA.2 n h⟩, hA.1 _ (lookupEntry_mem hl), fun n s h => h⟩
    intro p hp
    rcases List.mem_append.mp hp with hp | hp
    · exact hA.1 p ((eraseEntry_sublist _ _).subset hp)
    · rw [List.mem_singleton.mp hp]
      exact hA.1 _ (lookupEntry_mem hl)
  · rw [hgg] at hg
    injection hg with hg
    rw [Prod.ext_iff] at hg
    obtain ⟨hw, hst⟩ := hg
    simp only at hw hst
    subst hw
    subst hst
    refine ⟨fun n => if n = st.nextId then some (cacheKey a) else f n, ⟨?_, ?_⟩,
      by simp, ?_⟩
    · intro p hp
      have hp' : p ∈ evictIfFull st.entries ++ [(cacheKey a, st.nextId)] := hp
      rcases List.mem_append.mp hp' with hp1 | hp1
      · have hplt : p.2 < st.nextId := hwf.2.2.2.2 p ((evictIfFull_sublist _).subset hp1)
        show (if p.2 = st.nextId then some (cacheKey a) else f p.2) = some p.1
        rw [if_neg (by omega)]
        exact hA.1 p ((evictIfFull_sublist _).subset hp1)
      · rw [List.mem_singleton.mp hp1]
        simp
    · intro n h
      simp only [] at h
      show n < st.nextId + 1
      by_cases hn : n = st.nextId
      · omega
      · rw [if_neg hn] at h
        have := hA.2 n h
        omega
    · intro n s h
      have hlt : n < st.nextId := hA.2 n (by rw [h]; exact Option.some_ne_none s)
      show (if n = st.nextId then some (cacheKey a) else f n) = some s
      rw [if_neg (by omega)]
      exact h

/-- Every outcome of a call sequence carries valid directive arguments. -/
theorem runTrace_valid :
    ∀ (seq : List RateLimitDirectiveArgs) (st : LimiterCache),
      ∀ p ∈ runTrace seq st, validateDirectiveArgs p.1 = .ok () := by
  intro seq
  induction seq with
  | nil => intro st p hp; cases hp
  | cons a rest ih =>
    intro st p hp
    rw [runTrace] at hp
    cases hg : getLimiter a st with
    | error m =>
      rw [hg] at hp
      exact ih st p hp
    | ok q =>
      obtain ⟨w, st₁⟩ := q
      rw [hg] at hp
      have hp' : p ∈ (a, w) :: runTrace rest st₁ := hp
      rcases List.mem_cons.mp hp' with h1 | h1
      · rw [h1]
        exact (getLimiter_ok hg).1
      · exact ih st₁ p h1

/-- Over any call sequence, there is one ghost assignment recording, for
every successful call, the cache key its returned instance was created
for. -/
theorem runTrace_assigns :
    ∀ (seq : List RateLimitDirectiveArgs) (st : LimiterCache) (f : Nat → Option String),
      WFCache st → Assigns f st →
      ∃ f' : Nat → Option String, (∀ n s, f n = some s → f' n = some s) ∧
        ∀ p ∈ runTrace seq st, f' p.2 = some (cacheKey p.1) := by
  intro seq
  induction seq with
  | nil =>
    intro st f _ _
    exact ⟨f, fun n s h => h, fun p hp => absurd hp (List.not_mem_nil p)⟩
  | cons a rest ih =>
    intro st f hwf hA
    rw [runTrace]
    cases hg : getLimiter a st with
    | error m => exact ih st f hwf hA
    | ok q =>
      obtain ⟨w, st₁⟩ := q
      obtain ⟨f₁, hA₁, hw₁, hext₁⟩ := getLimiter_assigns hwf hA hg
      obtain ⟨f', hext', htr⟩ := ih st₁ f₁ (getLimiter_wf hwf hg) hA₁
      refine ⟨f', fun n s h => hext' n s (hext₁ n s h), ?_⟩
      intro q hq
      rcases List.mem_cons.mp hq with h1 | h1
      · rw [h1]
        exact hext' _ _ hw₁
      · exact htr q h1

/-- C5 counterexample: `getLimiter evictedArgs` on the fresh cache returns
instance 0; after 100 further `getLimiter` calls with distinct
configurations the entry is evicted, so a later call with the identical
arguments constructs and returns a new instance (101) and bumps the
construction counter — two calls with identical `(limit, duration)` on one
directive instance returning the same `CounterClient` instance fails. -/
theorem claim_C5_counterexample :
    (getLimiter evictedArgs initCache).toOption.map Prod.fst = some 0 ∧
    (getLimiter evictedArgs (runCalls evictionSeq initCache)).toOption.map Prod.fst =
      some 101 ∧
    (getLimiter evictedArgs (runCalls evictionSeq initCache)).toOption.map
      (fun p => p.2.nextId) = some 102 := by
  refine ⟨rfl, ?_, ?_⟩ <;> decide

/-- C5 (amended): for every pair of `getLimiter` calls on one directive
instance, (1) two calls with differing `(limit, duration)` arguments —
anywhere in any call sequence from the fresh cache — always return
different `CounterClient` instances; (2) two calls with identical
arguments return the same instance, and the second call constructs no new
client (the construction counter is unchanged), provided the entry is not
evicted from the capacity-100 LRU registry between them (`keyKept`); the
eviction case is the one exception, exhibited by the counterexample. -/
theorem claim_C5_limiter_sharing :
    (∀ (seq : List RateLimitDirectiveArgs) (a1 a2 : RateLimitDirectiveArgs)
        (v1 v2 : Nat),
      (a1, v1) ∈ runTrace seq initCache → (a2, v2) ∈ runTrace seq initCache →
      a1 ≠ a2 → v1 ≠ v2) ∧
    (∀ (args : RateLimitDirectiveArgs) (st : LimiterCache) (v : Nat)
        (st₀ : LimiterCache) (seq : List RateLimitDirectiveArgs),
      WFCache st → getLimiter args st = .ok (v, st₀) →
      keyKept (cacheKey args) seq st₀ →
      ∃ st₂, getLimiter args (runCalls seq st₀) = .ok (v, st₂) ∧
        st₂.nextId = (runCalls seq st₀).nextId) := by
  constructor
  · intro seq a1 a2 v1 v2 hp1 hp2 hne hv12
    obtain ⟨f', -, htr⟩ := runTrace_assigns seq initCache (fun _ => none) wf_initCache
      ⟨fun p hp => absurd hp (List.not_mem_nil p), fun n h => absurd rfl h⟩
    have h1 := htr (a1, v1) hp1
    have h2 := htr (a2, v2) hp2
    rw [hv12, h2] at h1
    injection h1 with h1
    exact hne (cacheKey_inj (runTrace_valid seq initCache (a1, v1) hp1)
      (runTrace_valid seq initCache (a2, v2) hp2) h1.symm)
  · intro args st v st₀ seq hwf hg hkept
    obtain ⟨hv, hmem, -, -⟩ := getLimiter_ok hg
    have hwf₀ := getLimiter_wf hwf hg
    have hmem' : (cacheKey args, v) ∈ (runCalls seq st₀).entries :=
      entry_kept seq st₀ hwf₀ hmem hkept
    have hwf' := wf_runCalls seq st₀ hwf₀
    have hlk : lookupEntry (cacheKey args) (runCalls seq st₀).entries = some v :=
      lookupEntry_of_mem hwf'.2.2.1 hmem'
    exact ⟨⟨eraseEntry (cacheKey args) (runCalls seq st₀).entries ++ [(cacheKey args, v)],
      (runCalls seq st₀).nextId⟩, by simp only [getLimiter, hv, hlk], rfl⟩

/-- C5 witness: in the run `[evictedArgs, validArgs]`, the two differing
configurations get instances 0 and 1; and after the first call, with the
non-evicting `[validArgs]` in between, a repeated `evictedArgs` call
returns the cached instance 0 with the construction counter unchanged. -/
theorem claim_C5_limiter_sharing_witness :
    0 ≠ 1 ∧
    (∃ st₂, getLimiter evictedArgs
        (runCalls [validArgs] ⟨[(cacheKey evictedArgs, 0)], 1⟩) = .ok (0, st₂) ∧
      st₂.nextId = (runCalls [validArgs] ⟨[(cacheKey evictedArgs, 0)], 1⟩).nextId) :=
  ⟨claim_C5_limiter_sharing.1 [evictedArgs, validArgs] evictedArgs validArgs 0 1
      (by decide) (by decide) (by decide),
    claim_C5_limiter_sharing.2 evictedArgs initCache 0
      ⟨[(cacheKey evictedArgs, 0)], 1⟩ [validArgs] wf_initCache rfl
      ⟨by decide, trivial⟩⟩

/-- C6: (1) after any sequence of `getLimiter` calls from the fresh cache,
the cache size is at most `MAX_LIMITER_CACHE_SIZE` (100); (2) inserting a
new key while the cache holds exactly 100 entries removes exactly the
least-recently-used (oldest) entry, keeping the rest in order; (3) every
successful call leaves its entry at the most-recently-used end. -/
theorem claim_C6_lru_invariants :
    (∀ seq : List RateLimitDirectiveArgs,
      (runCalls seq initCache).entries.length ≤ MAX_LIMITER_CACHE_SIZE) ∧
    (∀ (args : RateLimitDirectiveArgs) (st : LimiterCache), WFCache st →
      validateDirectiveArgs args = .ok () →
      lookupEntry (cacheKey args) st.entries = none →
      st.entries.length = MAX_LIMITER_CACHE_SIZE →
      getLimiter args st = .ok (st.nextId,
        ⟨st.entries.tail ++ [(cacheKey args, st.nextId)], st.nextId + 1⟩)) ∧
    (∀ (args : RateLimitDirectiveArgs) (st : LimiterCache) (v : Nat)
        (st' : LimiterCache), getLimiter args st = .ok (v, st') →
      st'.entries.getLast? = some (cacheKey args, v)) := by
  refine ⟨?_, ?_, ?_⟩
  · intro seq
    exact (wf_runCalls seq initCache wf_initCache).1
  · intro args st hwf hv hl hfull
    rcases getLimiter_cases args st with ⟨m, hv', hg⟩ | ⟨w, hv', hl', hg⟩ |
      ⟨hv', hl', hg⟩
    · rw [hv'] at hv
      cases hv
    · rw [hl'] at hl
      cases hl
    · rw [hg]
      cases hent : st.entries with
      | nil =>
        rw [hent] at hfull
        simp [MAX_LIMITER_CACHE_SIZE] at hfull
      | cons p rest =>
        obtain ⟨k0, v0⟩ := p
        have hmem0 : (k0, v0) ∈ st.entries := by
          rw [hent]
          exact List.mem_cons_self _ _
        have hlen0 : ((k0, v0) :: rest).length = MAX_LIMITER_CACHE_SIZE := by
          rw [← hent]
          exact hfull
        rw [evictIfFull_full (hwf.2.1 (k0, v0) hmem0) hlen0]
        rfl
  · intro args st v st' hg
    exact (getLimiter_ok hg).2.2.1

/-- C6 witness: inserting the 101st distinct configuration into the full
cache evicts exactly the oldest entry and appends the new one. -/
theorem claim_C6_lru_invariants_witness :
    getLimiter evictedArgs (runCalls fillerArgs initCache) =
      .ok ((runCalls fillerArgs initCache).nextId,
        ⟨(runCalls fillerArgs initCache).entries.tail ++
          [(cacheKey evictedArgs, (runCalls fillerArgs initCache).nextId)],
          (runCalls fillerArgs initCache).nextId + 1⟩) :=
  claim_C6_lru_invariants.2.1 evictedArgs (runCalls fillerArgs initCache)
    (wf_runCalls fillerArgs initCache wf_initCache) rfl (by decide) (by decide)

end RateLimitDirective
